import Mathlib

/-!
# Verification of the A* maze solver (`SigmaBale/A-star-pathfinding`)

Shallow embedding of `src/maze.rs` and `src/node.rs` (the modules declared by
`src/lib.rs`; `path.rs`, `pathfinder.rs` and `pathfinding.rs` are earlier,
unused iterations of the same program).

Modelling conventions:

* `usize`/`isize` arithmetic is modelled with `Nat`/`Int`; the program only
  ever forms coordinates of grid cells, so machine overflow is not modelled.
* `Maze::try_solve` stores its frontier in a `priority_queue::PriorityQueue`
  (an external crate).  The queue is modelled as an association list of
  `(Node, priority)` pairs with the crate's documented semantics:
  - `pop` removes and returns an entry whose priority is maximal; the custom
    `Ord` on `Priority` (`node.rs`, `other.0.cmp(&self.0)`) is reversed, so a
    maximal `Priority` is a minimal wrapped `f_cost` value.  Which entry is
    taken among several entries of equal priority is unspecified by the crate
    (it depends on the internal binary-heap layout); the model takes the first
    such entry in insertion order.  Every concrete execution used as a
    counterexample below is checked (`tieFreeRun`) to have a *unique* maximal
    priority at every pop, so those runs do not depend on this choice.
  - `push item prio` with an item equal (by the position-only `Eq`/`Hash` of
    `Node`) to a stored item updates the stored *priority only* and keeps the
    stored item; the freshly built node (with its `g_cost`, `h_cost` and
    `previous` link) is dropped.  Only a vacant `push` inserts the new node.
* The `f64` square root in `Node::heuristic` (`(c as f64).sqrt() as usize`)
  is modelled as `Nat.sqrt`, the floor of the real square root; for every
  integer below `2^53` the `f64` computation is exact in this sense.
* Indexing `self.maze[...]` out of bounds panics in Rust.  Cell lookup is
  modelled by `Option`; a missing cell (a row shorter than row 0) makes
  `is_valid` false.  Mazes whose rows all have the length of row 0 — the only
  ones on which the original cannot panic — never hit this case.
* The search loop runs on explicit fuel; `solveLoop_total` proves the fuel
  chosen by `try_solve` always suffices, so the `none` branch of `try_solve`
  is unreachable.
-/

namespace AStar

/-- `Position` from `node.rs`: a pair of `usize` coordinates `(x, y)`. -/
structure Position where
  x : Nat
  y : Nat
deriving DecidableEq, Repr

/-- `Node` from `node.rs`: a search node with its position, accumulated cost
`g_cost`, heuristic cost `h_cost` and an owned link to the node that
discovered it (`previous`). -/
inductive Node where
  | mk (position : Position) (g_cost : Nat) (h_cost : Nat) (previous : Option Node)

def Node.position : Node → Position
  | .mk p _ _ _ => p

def Node.g_cost : Node → Nat
  | .mk _ g _ _ => g

def Node.h_cost : Node → Nat
  | .mk _ _ h _ => h

def Node.previous : Node → Option Node
  | .mk _ _ _ pr => pr

/-- `Node::f_cost`: `self.g_cost + self.h_cost`. -/
def Node.f_cost (n : Node) : Nat := n.g_cost + n.h_cost

/-- `Node::lower_cost`:
`self.f_cost() < neighbour.f_cost() || (self.h_cost < neighbour.h_cost && self.f_cost() == neighbour.f_cost())`. -/
def Node.lower_cost (self neighbour : Node) : Bool :=
  self.f_cost < neighbour.f_cost ||
    (self.h_cost < neighbour.h_cost && self.f_cost == neighbour.f_cost)

/-- Largest `j ≤ k` with `j * j ≤ n` (0 when there is none).  A structurally
recursive integer square root, so that concrete search runs reduce inside
the kernel (`Nat.sqrt` is defined by well-founded recursion and does not);
`intSqrt_eq_sqrt` proves it equal to `Nat.sqrt`. -/
def sqrtAux : Nat → Nat → Nat
  | 0, _ => 0
  | k + 1, n => if (k + 1) * (k + 1) ≤ n then k + 1 else sqrtAux k n

/-- The floor of the real square root of `n`. -/
def intSqrt (n : Nat) : Nat := sqrtAux n n

/-- `Node::heuristic`: with `a = |end.x - position.x| * 10` and
`b = |end.y - position.y| * 10` (computed in `isize`), the result is
`sqrt(a² + b²)` truncated to an integer.  The `f64` square root followed by
the `as usize` cast is modelled as the floor of the real root (exact for
every value below `2^53`). -/
def heuristic (position «end» : Position) : Nat :=
  let a : Int := |(«end».x : Int) - (position.x : Int)| * 10
  let b : Int := |(«end».y : Int) - (position.y : Int)| * 10
  let c : Int := a ^ 2 + b ^ 2
  intSqrt c.toNat

/-- `Node::g_cost` (the associated function): the candidate position costs
`prev.g_cost + 14` when it is one of the four diagonal neighbours of `prev`,
and `prev.g_cost + 10` otherwise.  The coordinate arithmetic is `isize` in the
source (`prev.position.x() - 1` etc.), modelled by `Int`. -/
def gCost (position : Position) (prev : Node) : Nat :=
  let px : Int := prev.position.x
  let py : Int := prev.position.y
  let diagonal_positions : List (Int × Int) :=
    [(px - 1, py - 1), (px - 1, py + 1), (px + 1, py - 1), (px + 1, py + 1)]
  if ((position.x : Int), (position.y : Int)) ∈ diagonal_positions then
    prev.g_cost + 14
  else
    prev.g_cost + 10

/-- `ErrorKind` from `error.rs`. -/
inductive ErrorKind where
  | InvalidFilePath
  | InvalidCharacters
  | MazeIsNotSolvable
  | MazeNotSolved
  | MazeIsNotSet
  | StartEndNotSet
deriving DecidableEq, Repr

/-- `Maze` from `maze.rs`.  The solved path (`Path` is a `VecDeque` of
`(usize, usize)` pairs) is modelled as a list.  The `end` field is named
`endp` because `end` is a Lean keyword. -/
structure Maze where
  maze : List (List Char)
  start : Option Position
  endp : Option Position
  path : Option (List (Nat × Nat))
  start_char : Char
  end_char : Char
  wall_char : Char
  path_char : Char
  separator : Char
deriving DecidableEq, Repr

/-- `Maze::x_len`: `self.maze[0].len()`. -/
def Maze.x_len (m : Maze) : Nat := (m.maze.headD []).length

/-- `Maze::y_len`: `self.maze.len()`. -/
def Maze.y_len (m : Maze) : Nat := m.maze.length

/-- The cell at column `x`, row `y`, when it exists. -/
def Maze.cellAt (m : Maze) (x y : Nat) : Option Char :=
  (m.maze.get? y).bind (fun row => row.get? x)

/-- `Maze::are_chars_invalid`. -/
def Maze.are_chars_invalid (m : Maze) : Bool :=
  m.end_char == m.start_char
    || m.start_char == m.separator
    || m.end_char == m.separator
    || m.wall_char == m.separator
    || m.wall_char == m.start_char
    || m.wall_char == m.end_char

/-- `Node::is_valid`: the (signed) candidate coordinates are inside the grid
and the cell there is not the wall character.  The source indexes
`maze.field()[y][x]`, which panics when row `y` is shorter than row 0; a
missing cell is modelled as not valid (rows of uniform length never hit
this case). -/
def is_valid (pos : Int × Int) (m : Maze) : Bool :=
  pos.1 < (m.x_len : Int) && 0 ≤ pos.1 && pos.2 < (m.y_len : Int) && 0 ≤ pos.2
    && (match m.cellAt pos.1.toNat pos.2.toNat with
        | some c => c != m.wall_char
        | none => false)

/-- `Node::new`: costs are computed from the predecessor and the goal; the
`previous` link starts out as `None` (`try_solve` assigns it just before
pushing). -/
def Node.new (position : Position) (previous : Node) («end» : Position) : Node :=
  Node.mk position (gCost position previous) (heuristic position «end») none

/-- The neighbour offsets of `Node::neighbours`, in source order:
`offset_x = [-1,-1,0,1,1,1,0,-1]`, `offset_y = [0,-1,-1,-1,0,1,1,1]`. -/
def offsets : List (Int × Int) :=
  [(-1, 0), (-1, -1), (0, -1), (1, -1), (1, 0), (1, 1), (0, 1), (-1, 1)]

/-- `Node::neighbours`: one candidate node per valid offset position
(`node_x = pivot_x + offset_x[i]`, `node_y = pivot_y + offset_y[i]`).  The
source reads the goal as `maze.end.unwrap()`; `try_solve` only calls this
with `m.endp` set, so the `unwrap` is modelled by `getD`. -/
def Node.neighbours (self : Node) (m : Maze) : List Node :=
  offsets.filterMap (fun off =>
    if is_valid ((self.position.x : Int) + off.1,
        (self.position.y : Int) + off.2) m then
      some (Node.new ⟨((self.position.x : Int) + off.1).toNat,
        ((self.position.y : Int) + off.2).toNat⟩ self (m.endp.getD ⟨0, 0⟩))
    else
      none)

/-! ## The open priority queue

`PriorityQueue<Node, Priority>` keyed by the position-only `Eq`/`Hash` of
`Node`, with priority `Priority(f_cost)` whose `Ord` is reversed
(`other.0.cmp(&self.0)`), so the crate's max-queue pops a minimal stored
`f_cost` value.  Entries are `(stored node, stored priority value)`. -/

abbrev OpenQueue := List (Node × Nat)

/-- `PriorityQueue::get` keyed by position. -/
def openGet (openq : OpenQueue) (p : Position) : Option (Node × Nat) :=
  openq.find? (fun en => decide (en.1.position = p))

/-- The occupied case of `PriorityQueue::push`: the stored priority is
replaced, the stored node is kept (the crate never replaces an existing
key). -/
def openUpdate (openq : OpenQueue) (p : Position) (prio : Nat) : OpenQueue :=
  openq.map (fun en => if en.1.position = p then (en.1, prio) else en)

/-- Remove and return an entry with minimal stored priority value (the
crate's maximal `Priority` under the reversed `Ord`); the earliest such entry
is taken, a choice the crate leaves to its heap layout. -/
def popMin : Node × Nat → OpenQueue → ((Node × Nat) × OpenQueue)
  | best, [] => (best, [])
  | best, e :: rest =>
    if e.2 < best.2 then
      ((popMin e rest).1, best :: (popMin e rest).2)
    else
      ((popMin best rest).1, e :: (popMin best rest).2)

/-- One neighbour of the expansion loop body of `Maze::try_solve`:
skip it when its position is closed; when its position is already in the
queue, either skip (`lower_cost`) or push (which only updates the priority);
otherwise push a fresh entry whose `previous` is the expanded node. -/
def processNeighbour (closed : List Position) (current : Node)
    (openq : OpenQueue) (neighbour : Node) : OpenQueue :=
  let f_cost := neighbour.f_cost
  if closed.contains neighbour.position then
    openq
  else
    match openGet openq neighbour.position with
    | some node =>
      if node.1.lower_cost neighbour then
        openq
      else
        -- the source sets `neighbour.previous = Some(current)` and pushes,
        -- but the occupied push keeps the stored node: only the priority
        -- changes.
        openUpdate openq neighbour.position f_cost
    | none =>
      openq ++ [(Node.mk neighbour.position neighbour.g_cost neighbour.h_cost (some current), f_cost)]

/-- The whole neighbour loop of one iteration. -/
def expand (m : Maze) (closed : List Position) (current : Node)
    (openq : OpenQueue) : OpenQueue :=
  (current.neighbours m).foldl (processNeighbour closed current) openq

/-- Path reconstruction at the goal: the source seeds the deque with the
current position and `push_front`s along the `previous` chain, producing the
start-to-end order. -/
def Node.chain : Node → List (Nat × Nat)
  | .mk p _ _ none => [(p.x, p.y)]
  | .mk p _ _ (some n) => Node.chain n ++ [(p.x, p.y)]

/-- Result of one iteration of the `while` loop of `Maze::try_solve`. -/
inductive StepRes where
  | done (r : Except ErrorKind (List (Nat × Nat)))
  | next (openq : OpenQueue) (closed : List Position)

/-- One iteration: an empty queue terminates with `MazeIsNotSolvable`;
otherwise pop a minimal-priority entry, finish when it is the goal, else
expand it and close its position. -/
def stepOnce (m : Maze) («end» : Position) (openq : OpenQueue)
    (closed : List Position) : StepRes :=
  match openq with
  | [] => .done (.error .MazeIsNotSolvable)
  | a :: rest =>
    if (popMin a rest).1.1.position = «end» then
      .done (.ok (popMin a rest).1.1.chain)
    else
      .next (expand m closed (popMin a rest).1.1 (popMin a rest).2)
        (closed ++ [(popMin a rest).1.1.position])

/-- The `while` loop on explicit fuel. -/
def solveLoop (m : Maze) («end» : Position) :
    Nat → OpenQueue → List Position → Option (Except ErrorKind (List (Nat × Nat)))
  | 0, _, _ => none
  | fuel + 1, openq, closed =>
    match stepOnce m «end» openq closed with
    | .done r => some r
    | .next openq' closed' => solveLoop m «end» fuel openq' closed'

/-- `Maze::try_solve`.  Returns the `Result<()>` together with the final
state of `self` (`&mut self` in the source; only a successful solve writes
to `self.path`).  The fuel `x_len * y_len + 2` always suffices
(`solveLoop_total`), so the `none` fallback is unreachable. -/
def Maze.try_solve (m : Maze) : Except ErrorKind Unit × Maze :=
  match m.start, m.endp with
  | some start, some «end» =>
    if m.are_chars_invalid then
      (.error .InvalidCharacters, m)
    else
      let start_node := Node.mk start 0 (heuristic start «end») none
      match solveLoop m «end» (m.x_len * m.y_len + 2)
          [(start_node, start_node.f_cost)] [] with
      | some (.ok p) => (.ok (), { m with path := some p })
      | some (.error e) => (.error e, m)
      | none => (.error .MazeIsNotSolvable, m)
  | _, _ => (.error .StartEndNotSet, m)

/-- `Maze::get_path`. -/
def Maze.get_path (m : Maze) : Except ErrorKind (List (Nat × Nat)) :=
  match m.path with
  | some p => .ok p
  | none => .error .MazeNotSolved

/-! ## Observing intermediate loop states

`runSteps` exposes the loop state after a given number of iterations, and
`tieFreeRun` checks that each of those iterations popped a *uniquely*
minimal priority, so the trace does not depend on how the external crate's
binary heap breaks priority ties. -/

/-- The loop state after `k` non-terminal iterations (`none` when the loop
finishes earlier). -/
def runSteps (m : Maze) («end» : Position) :
    Nat → OpenQueue → List Position → Option (OpenQueue × List Position)
  | 0, openq, closed => some (openq, closed)
  | k + 1, openq, closed =>
    match stepOnce m «end» openq closed with
    | .done _ => none
    | .next openq' closed' => runSteps m «end» k openq' closed'

/-- Exactly one entry of the queue attains the minimal priority value. -/
def minPrioUnique (openq : OpenQueue) : Bool :=
  match openq with
  | [] => true
  | a :: rest =>
    (openq.countP (fun en => en.2 == (popMin a rest).1.2)) == 1

/-- Every one of the first `k` iterations pops a uniquely minimal priority. -/
def tieFreeRun (m : Maze) («end» : Position) :
    Nat → OpenQueue → List Position → Bool
  | 0, _, _ => true
  | k + 1, openq, closed =>
    minPrioUnique openq &&
      match stepOnce m «end» openq closed with
      | .done _ => true
      | .next openq' closed' => tieFreeRun m «end» k openq' closed'

/-- The initial loop state of `try_solve` for a maze whose `start` and
`endp` are set. -/
def initState (start «end» : Position) : OpenQueue :=
  [(Node.mk start 0 (heuristic start «end») none,
    (Node.mk start 0 (heuristic start «end») none).f_cost)]

/-- The loop state of `try_solve` on `m` after `k` iterations. -/
def stateAt (m : Maze) (k : Nat) : Option (OpenQueue × List Position) :=
  match m.start, m.endp with
  | some s, some e => runSteps m e k (initState s e) []
  | _, _ => none

/-- The entry popped at iteration `k` together with the remaining queue. -/
def poppedAt (m : Maze) (k : Nat) : Option ((Node × Nat) × OpenQueue) :=
  (stateAt m k).bind (fun st =>
    match st.1 with
    | [] => none
    | a :: rest => some (popMin a rest))

/-- The first `k` iterations of `try_solve` on `m` pop uniquely minimal
priorities. -/
def tieFree (m : Maze) (k : Nat) : Bool :=
  match m.start, m.endp with
  | some s, some e => tieFreeRun m e k (initState s e) []
  | _, _ => false

/-! ## Specification-side predicates -/

/-- Two coordinate pairs differ by exactly one of the 8 unit offsets. -/
def AdjacentP (a b : Nat × Nat) : Prop :=
  a ≠ b ∧ ((a.1 : Int) - b.1).natAbs ≤ 1 ∧ ((a.2 : Int) - b.2).natAbs ≤ 1

instance : DecidablePred (fun ab : (Nat × Nat) × (Nat × Nat) => AdjacentP ab.1 ab.2) :=
  fun _ => by unfold AdjacentP; infer_instance

instance (a b : Nat × Nat) : Decidable (AdjacentP a b) := by
  unfold AdjacentP; infer_instance

/-- 8-adjacency of positions. -/
def Adjacent (p q : Position) : Prop := AdjacentP (p.x, p.y) (q.x, q.y)

instance (p q : Position) : Decidable (Adjacent p q) := by
  unfold Adjacent; infer_instance

/-- The cell at `(x, y)` holds the maze's wall character. -/
def isWallCell (m : Maze) (x y : Nat) : Prop := m.cellAt x y = some m.wall_char

instance (m : Maze) (x y : Nat) : Decidable (isWallCell m x y) := by
  unfold isWallCell; infer_instance

/-- A position is an in-bounds, non-wall cell (the spec's notion of a cell a
path may use). -/
def SpecValid (m : Maze) (p : Position) : Prop :=
  p.x < m.x_len ∧ p.y < m.y_len ∧ ¬ isWallCell m p.x p.y

instance (m : Maze) (p : Position) : Decidable (SpecValid m p) := by
  unfold SpecValid; infer_instance

/-- Every row has the length of row 0 (the well-formedness the original
crate's documentation demands of maze files). -/
def rowsUniform (m : Maze) : Prop := ∀ row ∈ m.maze, row.length = m.x_len

/-- An 8-connected path of in-bounds, non-wall cells from `s` to `e`. -/
def Joined (m : Maze) (s e : Position) : Prop :=
  ∃ l : List Position, l.head? = some s ∧ l.getLast? = some e ∧
    l.Chain' Adjacent ∧ ∀ p ∈ l, SpecValid m p

/-- Well-formedness of a node's predecessor chain: the chain starts at `s`,
every link is an 8-adjacency step, and every node after the root sits on a
cell that `Node::is_valid` accepted. -/
def ChainInv (m : Maze) (s : Position) : Node → Prop
  | .mk p _ _ none => p = s
  | .mk p _ _ (some prev) =>
    Adjacent prev.position p ∧
      is_valid ((p.x : Int), (p.y : Int)) m = true ∧ ChainInv m s prev

/-! ## Concrete mazes for the counterexamples

The `start` field of a `Maze` is an ordinary field: `calculate_start` leaves
it untouched when the start character does not occur, so re-`set`ting a maze
from a file without the start character keeps the previous, now stale,
start position.  The mazes below use such reachable states. -/

/-- A maze whose (stale) start position sits on a wall cell; the four
configured characters are pairwise distinct. -/
def mzC1 : Maze :=
  { maze := [['W', '.', 'E']], start := some ⟨0, 0⟩, endp := some ⟨2, 0⟩,
    path := none, start_char := 'Q', end_char := 'E', wall_char := 'W',
    path_char := 'X', separator := '\\' }

/-- As `mzC1`, with a two-cell grid. -/
def mzC2 : Maze :=
  { maze := [['W', 'E']], start := some ⟨0, 0⟩, endp := some ⟨1, 0⟩,
    path := none, start_char := 'Q', end_char := 'E', wall_char := 'W',
    path_char := 'X', separator := '\\' }

/-- 4×3 maze on which iteration 4 pops a node whose stored `f_cost` (50)
exceeds the `f_cost` (44) of a node still in the queue: the entry at (2,0)
got its priority lowered to 42 by a cheaper rediscovery while keeping its
original node. -/
def mzC3 : Maze :=
  { maze := [['S', '.', '.', '.'],
             ['.', '.', 'W', '.'],
             ['.', '.', 'W', 'E']],
    start := some ⟨0, 0⟩, endp := some ⟨3, 2⟩, path := none,
    start_char := 'S', end_char := 'E', wall_char := 'W',
    path_char := 'X', separator := '\\' }

/-- 4×3 maze (goal walled off) on which iteration 6 pops, among the two
frontier nodes tied at the minimal `f_cost` 58, the one with the *larger*
`h_cost` (30 against 20), because its stale priority 50 wins the queue. -/
def mzC4 : Maze :=
  { maze := [['S', '.', '.', '.'],
             ['.', '.', 'W', 'W'],
             ['.', '.', 'W', 'E']],
    start := some ⟨0, 0⟩, endp := some ⟨3, 2⟩, path := none,
    start_char := 'S', end_char := 'E', wall_char := 'W',
    path_char := 'X', separator := '\\' }

/-- Same grid as `mzC3`; at iteration 2 the expansion of (1,0) rediscovers
the open position (2,0) with a cheaper candidate, and the occupied push
keeps the stored node. -/
def mzC5 : Maze :=
  { maze := [['S', '.', '.', '.'],
             ['.', '.', 'W', '.'],
             ['.', '.', 'W', 'E']],
    start := some ⟨0, 0⟩, endp := some ⟨3, 2⟩, path := none,
    start_char := 'S', end_char := 'E', wall_char := 'W',
    path_char := 'X', separator := '\\' }

/-- A maze with colliding characters (`start_char = end_char = wall_char`)
but unset start/end positions. -/
def mzC8 : Maze :=
  { maze := [['.', '.']], start := none, endp := none, path := none,
    start_char := 'Z', end_char := 'Z', wall_char := 'Z',
    path_char := 'X', separator := '\\' }

/-- A solvable maze used by witnesses. -/
def mzOkW : Maze :=
  { maze := [['S', '.', 'E']], start := some ⟨0, 0⟩, endp := some ⟨2, 0⟩,
    path := none, start_char := 'S', end_char := 'E', wall_char := 'W',
    path_char := 'X', separator := '\\' }

/-- The positions of the queue's entries, in queue order. -/
def openPos (openq : OpenQueue) : List Position :=
  openq.map (fun en => en.1.position)

/-- A position `Node::is_valid` accepts: in bounds and not a wall cell. -/
def validPos (m : Maze) (p : Position) : Prop :=
  is_valid ((p.x : Int), (p.y : Int)) m = true

/-- The state invariant of `try_solve`'s loop (start position `s`): open and
closed positions are disjoint, neither holds duplicates, and every position
ever enqueued was accepted by `Node::is_valid` — except possibly `s` itself,
which is never validated. -/
structure SearchInv (m : Maze) (s : Position) (openq : OpenQueue)
    (closed : List Position) : Prop where
  open_closed_disj : ∀ en ∈ openq, en.1.position ∉ closed
  open_nodup : (openPos openq).Nodup
  open_valid : ∀ en ∈ openq, validPos m en.1.position ∨ en.1.position = s
  closed_nodup : closed.Nodup
  closed_valid : ∀ p ∈ closed, validPos m p ∨ p = s

instance (α β : Type) [DecidableEq α] [DecidableEq β] :
    DecidableEq (Except α β) := fun a b =>
  match a, b with
  | .error x, .error y =>
    if h : x = y then .isTrue (by rw [h]) else
      .isFalse (fun hc => h (by injection hc))
  | .ok x, .ok y =>
    if h : x = y then .isTrue (by rw [h]) else
      .isFalse (fun hc => h (by injection hc))
  | .error _, .ok _ => .isFalse (fun hc => Except.noConfusion hc)
  | .ok _, .error _ => .isFalse (fun hc => Except.noConfusion hc)

/-- The reachability invariant of `try_solve`'s loop: every enqueued or
closed position is joined to the start by a valid 8-connected path, closed
positions have all their valid neighbours discovered, the start has been
seen, and the end has never been closed. -/
structure JoinInv (m : Maze) (s e : Position) (openq : OpenQueue)
    (closed : List Position) : Prop where
  jopen : ∀ en ∈ openq, Joined m s en.1.position
  jclosed : ∀ p ∈ closed, Joined m s p
  closure : ∀ p ∈ closed, ∀ q, Adjacent p q → validPos m q →
    q ∈ openPos openq ∨ q ∈ closed
  seen : s ∈ openPos openq ∨ s ∈ closed
  ennc : e ∉ closed

/-! # Theorems -/

/-- Helper: the square of `sqrtAux k n` never exceeds `n`. -/
theorem sqrtAux_sq_le (k n : Nat) : sqrtAux k n * sqrtAux k n ≤ n := by
  induction k with
  | zero => simp [sqrtAux]
  | succ k ih =>
    unfold sqrtAux
    split_ifs with h
    · exact h
    · exact ih

/-- Helper: `n` lies below the square of `sqrtAux k n + 1` whenever it lies
below `(k+1)²`. -/
theorem lt_sqrtAux_succ (k n : Nat) (hk : n < (k + 1) * (k + 1)) :
    n < (sqrtAux k n + 1) * (sqrtAux k n + 1) := by
  induction k with
  | zero => simpa [sqrtAux] using hk
  | succ k ih =>
    unfold sqrtAux
    split_ifs with h
    · exact hk
    · exact ih (Nat.lt_of_not_le h)

/-- Helper: the structural integer square root agrees with `Nat.sqrt`. -/
theorem intSqrt_eq_sqrt (n : Nat) : intSqrt n = Nat.sqrt n := by
  refine Nat.eq_sqrt.mpr ⟨sqrtAux_sq_le n n, lt_sqrtAux_succ n n ?_⟩
  nlinarith

/-- Helper: with start or end unset, `try_solve` reports `StartEndNotSet`. -/
theorem try_solve_eq_missing (m : Maze) (h : m.start = none ∨ m.endp = none) :
    m.try_solve = (.error .StartEndNotSet, m) := by
  rcases h with h | h
  · unfold Maze.try_solve; rw [h]
  · unfold Maze.try_solve; rw [h]
    rcases m.start with _ | s <;> rfl

/-- Helper: with both endpoints set and colliding characters, `try_solve`
reports `InvalidCharacters`. -/
theorem try_solve_eq_invalid (m : Maze) (s e : Position)
    (hs : m.start = some s) (he : m.endp = some e)
    (hc : m.are_chars_invalid = true) :
    m.try_solve = (.error .InvalidCharacters, m) := by
  unfold Maze.try_solve
  rw [hs, he]
  simp [hc]

/-- Helper: with both endpoints set and distinct characters, `try_solve` is
the run of the search loop from the initial frontier. -/
theorem try_solve_eq_run (m : Maze) (s e : Position)
    (hs : m.start = some s) (he : m.endp = some e)
    (hc : m.are_chars_invalid = false) :
    m.try_solve =
      (match solveLoop m e (m.x_len * m.y_len + 2) (initState s e) [] with
        | some (.ok p) => (.ok (), { m with path := some p })
        | some (.error e') => (.error e', m)
        | none => (.error .MazeIsNotSolvable, m)) := by
  unfold Maze.try_solve
  rw [hs, he, hc]
  rfl

/-- **C6.** `Node::heuristic` returns the floor of the real square root of
`(10·Δx)² + (10·Δy)²`, the exact integer sum of squares of the scaled
absolute coordinate differences. -/
theorem heuristic_is_floor_sqrt (p e : Position) :
    heuristic p e ^ 2
        ≤ (10 * ((p.x : Int) - e.x).natAbs) ^ 2
            + (10 * ((p.y : Int) - e.y).natAbs) ^ 2 ∧
      (10 * ((p.x : Int) - e.x).natAbs) ^ 2
          + (10 * ((p.y : Int) - e.y).natAbs) ^ 2
        < (heuristic p e + 1) ^ 2 := by
  have hc : (|(e.x : Int) - p.x| * 10) ^ 2 + (|(e.y : Int) - p.y| * 10) ^ 2
      = ((10 * ((p.x : Int) - e.x).natAbs) ^ 2
          + (10 * ((p.y : Int) - e.y).natAbs) ^ 2 : Nat) := by
    rw [abs_sub_comm ((e.x : Int)) (p.x : Int),
      abs_sub_comm ((e.y : Int)) (p.y : Int),
      Int.abs_eq_natAbs, Int.abs_eq_natAbs]
    push_cast
    ring
  unfold heuristic
  simp only [hc, Int.toNat_natCast, intSqrt_eq_sqrt]
  exact ⟨Nat.sqrt_le' _, Nat.lt_succ_sqrt' _⟩

/-- **C7.** For a grid neighbour `p` of `prev`'s position, `Node::g_cost`
adds 14 exactly when `p` differs from `prev` in both coordinates (a diagonal
step), and 10 otherwise. -/
theorem gCost_step (prev : Node) (p : Position)
    (h : Adjacent prev.position p) :
    gCost p prev =
      if p.x ≠ prev.position.x ∧ p.y ≠ prev.position.y
      then prev.g_cost + 14
      else prev.g_cost + 10 := by
  obtain ⟨hne, hx, hy⟩ := h
  rw [Ne, Prod.mk.injEq] at hne
  unfold gCost
  simp only [List.mem_cons, List.not_mem_nil, or_false, Prod.mk.injEq]
  split_ifs <;> first | rfl | (exfalso; omega)

/-- **C7 witness.** A concrete diagonal step costs 14. -/
theorem gCost_step_witness :
    Adjacent (Node.mk ⟨1, 1⟩ 0 0 none).position ⟨2, 2⟩ ∧
      gCost ⟨2, 2⟩ (Node.mk ⟨1, 1⟩ 0 0 none) = 0 + 14 := by
  refine ⟨by decide, ?_⟩
  have := gCost_step (Node.mk ⟨1, 1⟩ 0 0 none) ⟨2, 2⟩ (by decide)
  simpa using this

/-- **C8 counterexample.** A maze whose configured characters collide but
whose start and end are unset fails with `StartEndNotSet`, not with
`InvalidCharacters`. -/
theorem invalid_chars_not_first_cex :
    mzC8.are_chars_invalid = true ∧
      mzC8.try_solve = (.error .StartEndNotSet, mzC8) ∧
      ErrorKind.StartEndNotSet ≠ ErrorKind.InvalidCharacters := by
  refine ⟨by decide, by decide, by decide⟩

/-- **C8 (amended).** When start and end are both set, colliding configured
characters make `try_solve` fail with `InvalidCharacters` and leave the maze
unchanged. -/
theorem try_solve_invalid_chars (m : Maze) (s e : Position)
    (hs : m.start = some s) (he : m.endp = some e)
    (hc : m.are_chars_invalid = true) :
    m.try_solve = (.error .InvalidCharacters, m) :=
  try_solve_eq_invalid m s e hs he hc

/-- **C8 witness.** -/
theorem try_solve_invalid_chars_witness :
    { mzC8 with start := some ⟨0, 0⟩, endp := some ⟨1, 0⟩ }.try_solve
      = (.error .InvalidCharacters, { mzC8 with start := some ⟨0, 0⟩, endp := some ⟨1, 0⟩ }) :=
  try_solve_invalid_chars _ ⟨0, 0⟩ ⟨1, 0⟩ rfl rfl (by decide)

/-- **C10.** Every error return of `try_solve` leaves the maze unchanged; in
particular `get_path` afterwards answers exactly as before. -/
theorem try_solve_error_frame (m : Maze) (ek : ErrorKind)
    (h : (m.try_solve).1 = .error ek) :
    (m.try_solve).2 = m ∧ (m.try_solve).2.get_path = m.get_path := by
  suffices hfr : (m.try_solve).2 = m by
    exact ⟨hfr, by rw [hfr]⟩
  rcases hs : m.start with _ | s
  · rw [try_solve_eq_missing m (Or.inl hs)]
  · rcases he : m.endp with _ | e
    · rw [try_solve_eq_missing m (Or.inr he)]
    · cases hc : m.are_chars_invalid
      · rw [try_solve_eq_run m s e hs he hc] at h ⊢
        split at h
        · simp at h
        · rfl
        · rfl
      · rw [try_solve_eq_invalid m s e hs he hc]

/-- **C1 counterexample.** On `mzC1` (stale start position on a wall cell,
all four configured characters pairwise distinct) `try_solve` succeeds and
the recorded path starts on a wall cell. -/
theorem path_contains_wall_cex :
    (mzC1.try_solve).1 = .ok () ∧
      (mzC1.try_solve).2.get_path = .ok [(0, 0), (1, 0), (2, 0)] ∧
      mzC1.start = some ⟨0, 0⟩ ∧
      isWallCell mzC1 0 0 ∧
      mzC1.are_chars_invalid = false := by decide

/-- **C2 counterexample.** On `mzC2` start and end are set, the four
characters are pairwise distinct, no 8-connected path of non-wall cells
joins start to end (the start cell is a wall), yet `try_solve` returns `Ok`
rather than `MazeIsNotSolvable`. -/
theorem unsolvable_iff_cex :
    mzC2.start = some ⟨0, 0⟩ ∧ mzC2.endp = some ⟨1, 0⟩ ∧
      mzC2.are_chars_invalid = false ∧
      (mzC2.try_solve).1 = .ok () ∧
      ¬ Joined mzC2 ⟨0, 0⟩ ⟨1, 0⟩ := by
  refine ⟨rfl, rfl, by decide, by decide, ?_⟩
  rintro ⟨l, hh, -, -, hv⟩
  match l, hh with
  | p :: t, hh =>
    have hp : p = ⟨0, 0⟩ := by simpa using hh
    have hsv := hv p (List.mem_cons_self ..)
    rw [hp] at hsv
    exact (by decide : ¬ SpecValid mzC2 ⟨0, 0⟩) hsv

set_option maxRecDepth 100000 in
/-- **C3 counterexample.** On `mzC3`, iteration 4 of the loop pops the entry
at (2,0), whose stored node has `f_cost = 50`, while the queue still holds a
node of `f_cost = 44`: the pop follows the stale priority 42 recorded by a
cheaper rediscovery, not the stored node's `f_cost`.  Every pop up to that
point had a uniquely minimal priority, so the trace is independent of how
the crate's heap breaks priority ties. -/
theorem pop_not_min_f_cex :
    tieFree mzC3 5 = true ∧
      (poppedAt mzC3 4).map (fun pr => pr.1.1.f_cost) = some 50 ∧
      (poppedAt mzC3 4).map (fun pr => pr.2.map (fun en => en.1.f_cost))
        = some [44, 58] ∧
      (poppedAt mzC3 4).map
          (fun pr => pr.2.any (fun en => en.1.f_cost < pr.1.1.f_cost))
        = some true := by decide

set_option maxRecDepth 100000 in
/-- **C4 counterexample.** On `mzC4`, iteration 6 pops, of the two frontier
nodes tied at the minimal `f_cost` 58, the one with `h_cost = 30` — not the
tied node with the smaller `h_cost = 20` — because extraction follows the
stored priorities (50 against 58), which never contain `h_cost`.  All pops
up to that point had uniquely minimal priorities. -/
theorem pop_tie_h_cex :
    tieFree mzC4 7 = true ∧
      (poppedAt mzC4 6).map (fun pr => (pr.1.1.f_cost, pr.1.1.h_cost))
        = some (58, 30) ∧
      (poppedAt mzC4 6).map
          (fun pr => pr.2.map (fun en => (en.1.f_cost, en.1.h_cost)))
        = some [(58, 20)] ∧
      (poppedAt mzC4 6).map
          (fun pr => pr.2.all (fun en => pr.1.1.f_cost ≤ en.1.f_cost)
            && pr.2.any (fun en => en.1.f_cost == pr.1.1.f_cost
              && en.1.h_cost < pr.1.1.h_cost))
        = some true := by decide

set_option maxRecDepth 100000 in
/-- **C5.** On `mzC5`, iteration 2 expands the node at (1,0) (`g_cost` 10);
its neighbour (2,0) is already in the queue with `g_cost` 28 and is not
skipped (`lower_cost` is false: 50 < 42 fails, and the `h_cost`s are equal),
so the source pushes a candidate with `g_cost = 20`, `h_cost = 22` and
predecessor (1,0).  After the iteration the queue entry for (2,0) still
holds the old node — `g_cost` 28, predecessor (1,1) — with only its priority
updated to the candidate's `f_cost` 42. -/
theorem push_keeps_stored_node :
    tieFree mzC5 3 = true ∧
      (poppedAt mzC5 2).map (fun pr =>
          (pr.1.1.position.x, pr.1.1.position.y, pr.1.1.g_cost))
        = some (1, 0, 10) ∧
      gCost ⟨2, 0⟩ (Node.mk ⟨1, 0⟩ 10 28 none) = 20 ∧
      heuristic ⟨2, 0⟩ ⟨3, 2⟩ = 22 ∧
      (Node.mk ⟨2, 0⟩ 28 22 none).lower_cost (Node.mk ⟨2, 0⟩ 20 22 none)
        = false ∧
      (stateAt mzC5 3).map (fun st =>
          (openGet st.1 ⟨2, 0⟩).map (fun en =>
            (en.1.g_cost, en.1.h_cost,
              en.1.previous.map (fun n => (n.position.x, n.position.y)),
              en.2)))
        = some (some (28, 22, some (1, 1), 42)) := by decide

/-- **C3 (amended).** The queue extracts an entry whose *stored priority* —
the `f_cost` value wrapped in `Priority` when the entry was pushed or last
updated in place, which can be smaller than the stored node's current
`f_cost` — is minimal: the reversed `Ord` on `Priority` makes the crate's
max-queue pop a minimal priority value. -/
theorem popMin_is_min (a : Node × Nat) (l : OpenQueue) :
    (popMin a l).1 ∈ a :: l ∧ ∀ en ∈ a :: l, (popMin a l).1.2 ≤ en.2 := by
  induction l generalizing a with
  | nil => simp [popMin]
  | cons e rest ih =>
    unfold popMin
    split_ifs with h
    · obtain ⟨hmem, hle⟩ := ih e
      simp only [List.mem_cons] at hmem
      refine ⟨?_, ?_⟩
      · simp only [List.mem_cons]
        tauto
      · intro en hen
        simp only [List.mem_cons] at hen
        rcases hen with rfl | hen
        · exact le_of_lt (lt_of_le_of_lt (hle e (by simp)) h)
        · exact hle en (List.mem_cons.mpr hen)
    · obtain ⟨hmem, hle⟩ := ih a
      simp only [List.mem_cons] at hmem
      refine ⟨?_, ?_⟩
      · simp only [List.mem_cons]
        tauto
      · intro en hen
        simp only [List.mem_cons] at hen
        rcases hen with rfl | rfl | hen
        · exact hle en (by simp)
        · exact le_trans (hle a (by simp)) (not_lt.mp h)
        · exact hle en (by simp [hen])

/-- **C3 amended witness.** -/
theorem popMin_is_min_witness :
    (Node.mk ⟨1, 0⟩ 0 3 none, 3)
        ∈ (Node.mk ⟨0, 0⟩ 0 5 none, 5) :: [(Node.mk ⟨1, 0⟩ 0 3 none, 3)] ∧
      (popMin (Node.mk ⟨0, 0⟩ 0 5 none, 5) [(Node.mk ⟨1, 0⟩ 0 3 none, 3)]).1
          ∈ (Node.mk ⟨0, 0⟩ 0 5 none, 5) :: [(Node.mk ⟨1, 0⟩ 0 3 none, 3)] ∧
      ∀ en ∈ (Node.mk ⟨0, 0⟩ 0 5 none, 5) :: [(Node.mk ⟨1, 0⟩ 0 3 none, 3)],
        (popMin (Node.mk ⟨0, 0⟩ 0 5 none, 5)
          [(Node.mk ⟨1, 0⟩ 0 3 none, 3)]).1.2 ≤ en.2 :=
  ⟨by simp, popMin_is_min (Node.mk ⟨0, 0⟩ 0 5 none, 5)
    [(Node.mk ⟨1, 0⟩ 0 3 none, 3)]⟩

/-- **C4 (amended).** Extraction is a function of the stored priority values
alone: two queues with the same priorities in the same order pop the same
position in the list and leave rests with the same priorities — `h_cost`
(and everything else in the stored nodes) plays no role in which entry the
queue extracts.  Ties among equal minimal priorities fall to the crate's
internal heap order, not to an `h_cost` rule. -/
theorem popMin_ignores_h (a a' : Node × Nat) (l l' : OpenQueue)
    (ha : a.2 = a'.2) (hl : l.map Prod.snd = l'.map Prod.snd) :
    (popMin a l).1.2 = (popMin a' l').1.2 ∧
      (popMin a l).2.map Prod.snd = (popMin a' l').2.map Prod.snd := by
  induction l generalizing a a' l' with
  | nil =>
    have : l' = [] := by
      cases l' with
      | nil => rfl
      | cons x xs => simp at hl
    subst this
    simpa [popMin] using ha
  | cons e rest ih =>
    cases l' with
    | nil => simp at hl
    | cons e' rest' =>
      simp only [List.map_cons, List.cons.injEq] at hl
      obtain ⟨he, hrest⟩ := hl
      unfold popMin
      rw [ha, he]
      split_ifs with h
      · obtain ⟨h1, h2⟩ := ih e e' rest' he hrest
        exact ⟨h1, by simp [ha, h2]⟩
      · obtain ⟨h1, h2⟩ := ih a a' rest' ha hrest
        exact ⟨h1, by simp [he, h2]⟩

/-- **C4 amended witness.** -/
theorem popMin_ignores_h_witness :
    ((Node.mk ⟨0, 0⟩ 0 5 none, 5).2 = (Node.mk ⟨9, 9⟩ 2 3 none, 5).2) ∧
      ([(Node.mk ⟨1, 0⟩ 0 3 none, 3)].map Prod.snd
        = [(Node.mk ⟨7, 7⟩ 1 2 none, 3)].map Prod.snd) ∧
      ((popMin (Node.mk ⟨0, 0⟩ 0 5 none, 5)
            [(Node.mk ⟨1, 0⟩ 0 3 none, 3)]).1.2
          = (popMin (Node.mk ⟨9, 9⟩ 2 3 none, 5)
            [(Node.mk ⟨7, 7⟩ 1 2 none, 3)]).1.2 ∧
        (popMin (Node.mk ⟨0, 0⟩ 0 5 none, 5)
            [(Node.mk ⟨1, 0⟩ 0 3 none, 3)]).2.map Prod.snd
          = (popMin (Node.mk ⟨9, 9⟩ 2 3 none, 5)
            [(Node.mk ⟨7, 7⟩ 1 2 none, 3)]).2.map Prod.snd) :=
  ⟨rfl, rfl, popMin_ignores_h _ _ _ _ rfl rfl⟩

/-- **C10 witness.** A failing solve keeps the (previously computed) stored
path, so `get_path` still returns it. -/
theorem try_solve_error_frame_witness :
    ((({ mzC8 with path := some [(0, 0)] }).try_solve).1
        = .error .StartEndNotSet) ∧
      ((({ mzC8 with path := some [(0, 0)] }).try_solve).2
          = { mzC8 with path := some [(0, 0)] } ∧
        (({ mzC8 with path := some [(0, 0)] }).try_solve).2.get_path
          = ({ mzC8 with path := some [(0, 0)] } : Maze).get_path) :=
  ⟨by decide, try_solve_error_frame _ .StartEndNotSet (by decide)⟩


/-! ## Loop invariant machinery -/

/-- Helper: popping returns a permutation: the popped entry together with
the rest is the original queue. -/
theorem popMin_perm (a : Node × Nat) (l : OpenQueue) :
    List.Perm ((popMin a l).1 :: (popMin a l).2) (a :: l) := by
  induction l generalizing a with
  | nil => simp [popMin]
  | cons e rest ih =>
    unfold popMin
    split_ifs with h
    · show ((popMin e rest).1 :: a :: (popMin e rest).2).Perm (a :: e :: rest)
      exact (List.Perm.swap a (popMin e rest).1 (popMin e rest).2).trans
        ((ih e).cons a)
    · show ((popMin a rest).1 :: e :: (popMin a rest).2).Perm (a :: e :: rest)
      exact (List.Perm.swap e (popMin a rest).1 (popMin a rest).2).trans
        (((ih a).cons e).trans (List.Perm.swap a e rest))

/-- Helper: a successful `openGet` returns a queue entry at the position. -/
theorem openGet_some {openq : OpenQueue} {p : Position} {en : Node × Nat}
    (h : openGet openq p = some en) : en ∈ openq ∧ en.1.position = p := by
  unfold openGet at h
  refine ⟨List.mem_of_find?_eq_some h, ?_⟩
  have h2 := List.find?_some h
  simpa using h2

/-- Helper: a failing `openGet` means the position is not in the queue. -/
theorem openGet_none {openq : OpenQueue} {p : Position}
    (h : openGet openq p = none) : p ∉ openPos openq := by
  unfold openGet at h
  rw [List.find?_eq_none] at h
  intro hp
  obtain ⟨en, hen, hpos⟩ := List.mem_map.mp hp
  exact (by simpa using h en hen : ¬ en.1.position = p) hpos

/-- Helper: an in-place priority update does not change the queue's
positions. -/
theorem openPos_openUpdate (openq : OpenQueue) (p : Position) (f : Nat) :
    openPos (openUpdate openq p f) = openPos openq := by
  unfold openPos openUpdate
  rw [List.map_map]
  exact List.map_congr_left (fun en _ => by
    simp only [Function.comp_apply]
    split <;> rfl)

/-- Helper: `List.contains` on positions is membership. -/
theorem contains_false_not_mem {l : List Position} {p : Position}
    (h : l.contains p = false) : p ∉ l := by
  intro hp
  have : l.elem p = true := List.elem_iff.mpr hp
  rw [List.contains] at h
  rw [this] at h
  exact Bool.noConfusion h

/-- Helper: `List.contains` detects membership. -/
theorem contains_true_mem {l : List Position} {p : Position}
    (h : l.contains p = true) : p ∈ l := by
  rw [List.contains] at h
  exact List.elem_iff.mp h

/-- Helper: a valid position is inside the grid box. -/
theorem validPos_lt {m : Maze} {p : Position} (h : validPos m p) :
    p.x < m.x_len ∧ p.y < m.y_len := by
  unfold validPos is_valid at h
  simp only [Bool.and_eq_true, decide_eq_true_eq] at h
  omega

/-- Helper: a valid position is not a wall cell. -/
theorem validPos_not_wall {m : Maze} {p : Position} (h : validPos m p) :
    ¬ isWallCell m p.x p.y := by
  unfold validPos is_valid at h
  simp only [Bool.and_eq_true, decide_eq_true_eq] at h
  obtain ⟨-, hcell⟩ := h
  intro hw
  unfold isWallCell at hw
  rw [Int.toNat_natCast, Int.toNat_natCast] at hcell
  rw [hw] at hcell
  simp at hcell

/-- Helper: a valid position is an in-bounds non-wall cell. -/
theorem validPos_spec {m : Maze} {p : Position} (h : validPos m p) :
    SpecValid m p :=
  ⟨(validPos_lt h).1, (validPos_lt h).2, validPos_not_wall h⟩

/-- Helper: on a maze with rows of uniform length, every in-bounds non-wall
cell is accepted by `Node::is_valid`. -/
theorem spec_validPos {m : Maze} {p : Position} (hrows : rowsUniform m)
    (h : SpecValid m p) : validPos m p := by
  obtain ⟨hx, hy, hw⟩ := h
  obtain ⟨row, hrow⟩ : ∃ row, m.maze.get? p.y = some row := by
    have : p.y < m.maze.length := hy
    exact ⟨_, List.get?_eq_get this⟩
  have hlen : row.length = m.x_len := hrows row (by
    exact List.get?_mem hrow)
  obtain ⟨c, hc⟩ : ∃ c, row.get? p.x = some c := by
    have : p.x < row.length := by rw [hlen]; exact hx
    exact ⟨_, List.get?_eq_get this⟩
  have hcell : m.cellAt p.x p.y = some c := by
    unfold Maze.cellAt
    rw [hrow]
    exact hc
  have hcw : c ≠ m.wall_char := by
    intro hcw
    exact hw (by unfold isWallCell; rw [hcell, hcw])
  unfold validPos is_valid
  simp only [Bool.and_eq_true, decide_eq_true_eq]
  refine ⟨⟨⟨⟨?_, ?_⟩, ?_⟩, ?_⟩, ?_⟩
  · exact_mod_cast hx
  · omega
  · exact_mod_cast hy
  · omega
  · rw [Int.toNat_natCast, Int.toNat_natCast, hcell]
    simpa using hcw


/-- Helper: every generated neighbour sits on a cell `Node::is_valid`
accepted, adjacent to the expanded node's position. -/
theorem mem_neighbours {n : Node} {m : Maze} {nb : Node}
    (h : nb ∈ n.neighbours m) :
    validPos m nb.position ∧ Adjacent n.position nb.position := by
  unfold Node.neighbours at h
  rw [List.mem_filterMap] at h
  obtain ⟨off, hoff, heq⟩ := h
  split at heq
  case isFalse => simp at heq
  case isTrue hv =>
    have hnb : nb = Node.new
        ⟨((n.position.x : Int) + off.1).toNat, ((n.position.y : Int) + off.2).toNat⟩
        n (m.endp.getD ⟨0, 0⟩) := by
      injection heq with heq
      exact heq.symm
    have hoffb : (off.1 = -1 ∨ off.1 = 0 ∨ off.1 = 1) ∧
        (off.2 = -1 ∨ off.2 = 0 ∨ off.2 = 1) ∧ ¬(off.1 = 0 ∧ off.2 = 0) := by
      fin_cases hoff <;> simp
    have hnn : 0 ≤ (n.position.x : Int) + off.1 ∧
        0 ≤ (n.position.y : Int) + off.2 := by
      unfold is_valid at hv
      simp only [Bool.and_eq_true, decide_eq_true_eq] at hv
      exact ⟨hv.1.1.1.2, hv.1.2⟩
    have hx' : ((nb.position.x : Int)) = (n.position.x : Int) + off.1 := by
      rw [hnb]
      exact Int.toNat_of_nonneg hnn.1
    have hy' : ((nb.position.y : Int)) = (n.position.y : Int) + off.2 := by
      rw [hnb]
      exact Int.toNat_of_nonneg hnn.2
    constructor
    · unfold validPos
      have harg : (((nb.position.x : Int)), ((nb.position.y : Int)))
          = ((n.position.x : Int) + off.1, (n.position.y : Int) + off.2) := by
        rw [hx', hy']
      rw [harg]
      exact hv
    · unfold Adjacent AdjacentP
      simp only [ne_eq, Prod.mk.injEq, not_and]
      refine ⟨?_, ?_, ?_⟩ <;> omega

/-- Helper: every position adjacent to the expanded node that
`Node::is_valid` accepts appears among the generated neighbours. -/
theorem neighbours_complete {n : Node} {m : Maze} {q : Position}
    (hadj : Adjacent n.position q) (hval : validPos m q) :
    ∃ nb ∈ n.neighbours m, nb.position = q := by
  obtain ⟨qx, qy⟩ := q
  unfold Adjacent AdjacentP at hadj
  simp only [ne_eq, Prod.mk.injEq, not_and] at hadj
  obtain ⟨hne, hbx, hby⟩ := hadj
  have hdx : (qx : Int) - n.position.x = -1 ∨ (qx : Int) - n.position.x = 0 ∨
      (qx : Int) - n.position.x = 1 := by omega
  have hdy : (qy : Int) - n.position.y = -1 ∨ (qy : Int) - n.position.y = 0 ∨
      (qy : Int) - n.position.y = 1 := by omega
  have hoff : ((qx : Int) - n.position.x, (qy : Int) - n.position.y) ∈ offsets := by
    have hne' : ¬((qx : Int) - n.position.x = 0 ∧ (qy : Int) - n.position.y = 0) := by
      omega
    rcases hdx with h | h | h <;> rcases hdy with h' | h' | h' <;>
      rw [h, h'] <;> first | decide | (exfalso; omega)
  unfold Node.neighbours
  refine ⟨Node.new ⟨qx, qy⟩ n (m.endp.getD ⟨0, 0⟩),
    List.mem_filterMap.mpr
      ⟨((qx : Int) - n.position.x, (qy : Int) - n.position.y), hoff, ?_⟩, rfl⟩
  have h1 : (n.position.x : Int) + ((qx : Int) - n.position.x) = (qx : Int) := by
    ring
  have h2 : (n.position.y : Int) + ((qy : Int) - n.position.y) = (qy : Int) := by
    ring
  rw [h1, h2]
  rw [if_pos (show is_valid ((qx : Int), (qy : Int)) m = true from hval)]
  simp [Int.toNat_natCast]

/-- Helper: every entry after one neighbour-processing step is either an
entry of the old queue (possibly with a new priority) or the fresh node
built from the neighbour with the expanded node as predecessor. -/
theorem processNeighbour_entries {closed : List Position} {cur : Node}
    {openq : OpenQueue} {nb : Node} {en : Node × Nat}
    (h : en ∈ processNeighbour closed cur openq nb) :
    (∃ pr, (en.1, pr) ∈ openq) ∨
      en.1 = Node.mk nb.position nb.g_cost nb.h_cost (some cur) := by
  unfold processNeighbour at h
  split_ifs at h with hcl
  · exact Or.inl ⟨en.2, h⟩
  · split at h
    next st hst =>
      split_ifs at h with hlc
      · exact Or.inl ⟨en.2, h⟩
      · unfold openUpdate at h
        rw [List.mem_map] at h
        obtain ⟨en₀, hen₀, heq⟩ := h
        by_cases hps : en₀.1.position = nb.position
        · rw [if_pos hps] at heq
          refine Or.inl ⟨en₀.2, ?_⟩
          have : en.1 = en₀.1 := by rw [← heq]
          rw [this]
          exact hen₀
        · rw [if_neg hps] at heq
          rw [← heq]
          exact Or.inl ⟨en₀.2, hen₀⟩
    next hst =>
      rw [List.mem_append] at h
      rcases h with h | h
      · exact Or.inl ⟨en.2, h⟩
      · simp only [List.mem_singleton] at h
        rw [h]
        exact Or.inr rfl

/-- Helper: one neighbour-processing step either keeps the queue's positions
or appends the neighbour's (then new and unclosed) position. -/
theorem processNeighbour_openPos (closed : List Position) (cur : Node)
    (openq : OpenQueue) (nb : Node) :
    openPos (processNeighbour closed cur openq nb) = openPos openq ∨
      (openPos (processNeighbour closed cur openq nb)
          = openPos openq ++ [nb.position] ∧
        nb.position ∉ openPos openq ∧ nb.position ∉ closed) := by
  unfold processNeighbour
  split_ifs with hcl
  · exact Or.inl rfl
  · split
    next st hst =>
      split_ifs with hlc
      · exact Or.inl rfl
      · exact Or.inl (openPos_openUpdate openq nb.position nb.f_cost)
    next hst =>
      refine Or.inr ⟨?_, openGet_none hst, ?_⟩
      · simp [openPos, Node.position]
      · exact contains_false_not_mem (Bool.not_eq_true _ ▸ hcl)

/-- Helper: after one neighbour-processing step, the neighbour's position is
in the queue or closed. -/
theorem processNeighbour_self (closed : List Position) (cur : Node)
    (openq : OpenQueue) (nb : Node) :
    nb.position ∈ openPos (processNeighbour closed cur openq nb) ∨
      nb.position ∈ closed := by
  unfold processNeighbour
  split_ifs with hcl
  · exact Or.inr (contains_true_mem hcl)
  · split
    next st hst =>
      have hmem := openGet_some hst
      split_ifs with hlc
      · refine Or.inl ?_
        rw [← hmem.2]
        exact List.mem_map.mpr ⟨st, hmem.1, rfl⟩
      · refine Or.inl ?_
        rw [openPos_openUpdate]
        rw [← hmem.2]
        exact List.mem_map.mpr ⟨st, hmem.1, rfl⟩
    next hst =>
      refine Or.inl ?_
      simp [openPos, Node.position]

/-- Helper: one neighbour-processing step never removes positions. -/
theorem processNeighbour_mono {closed : List Position} {cur : Node}
    {openq : OpenQueue} {nb : Node} {p : Position}
    (h : p ∈ openPos openq) :
    p ∈ openPos (processNeighbour closed cur openq nb) := by
  rcases processNeighbour_openPos closed cur openq nb with heq | ⟨heq, -, -⟩ <;>
    rw [heq]
  · exact h
  · exact List.mem_append_left _ h


/-- Helper: positions are never adjacent to themselves. -/
theorem Adjacent.ne {p q : Position} (h : Adjacent p q) : p ≠ q := by
  intro he
  exact h.1 (by rw [he])

/-- Helper: every entry of the expanded queue is an old entry's node
(possibly re-prioritised) or a fresh node built from one of the processed
neighbours with the expanded node as predecessor. -/
theorem foldl_entries {closed : List Position} {cur : Node} (l : List Node) :
    ∀ (openq : OpenQueue) (en : Node × Nat),
      en ∈ l.foldl (processNeighbour closed cur) openq →
      (∃ pr, (en.1, pr) ∈ openq) ∨
        ∃ nb ∈ l, en.1 = Node.mk nb.position nb.g_cost nb.h_cost (some cur) := by
  induction l with
  | nil =>
    intro openq en h
    exact Or.inl ⟨en.2, h⟩
  | cons a t ih =>
    intro openq en h
    rcases ih _ en h with ⟨pr, hpr⟩ | ⟨nb, hnb, heq⟩
    · rcases processNeighbour_entries hpr with ⟨pr', h'⟩ | h'
      · exact Or.inl ⟨pr', h'⟩
      · exact Or.inr ⟨a, List.mem_cons_self a t, h'⟩
    · exact Or.inr ⟨nb, List.mem_cons_of_mem _ hnb, heq⟩

/-- Helper: processing neighbours never removes queue positions. -/
theorem foldl_openPos_mono {closed : List Position} {cur : Node}
    (l : List Node) :
    ∀ (openq : OpenQueue) (p : Position), p ∈ openPos openq →
      p ∈ openPos (l.foldl (processNeighbour closed cur) openq) := by
  induction l with
  | nil => intro openq p h; exact h
  | cons a t ih =>
    intro openq p h
    exact ih _ p (processNeighbour_mono h)

/-- Helper: after the neighbour loop, every processed neighbour's position
is in the queue or closed. -/
theorem foldl_covers {closed : List Position} {cur : Node} (l : List Node)
    (nb : Node) (hnb : nb ∈ l) :
    ∀ openq : OpenQueue,
      nb.position ∈ openPos (l.foldl (processNeighbour closed cur) openq) ∨
        nb.position ∈ closed := by
  induction l with
  | nil => exact absurd hnb (List.not_mem_nil nb)
  | cons a t ih =>
    intro openq
    rcases List.mem_cons.mp hnb with rfl | h
    · rcases processNeighbour_self closed cur openq nb with h | h
      · exact Or.inl (foldl_openPos_mono t _ _ h)
      · exact Or.inr h
    · exact ih h _

/-- Helper: the neighbour loop preserves distinctness of queue positions
and their disjointness from the closed set. -/
theorem foldl_nodup_disj {closed : List Position} {cur : Node}
    (l : List Node) :
    ∀ openq : OpenQueue, (openPos openq).Nodup →
      (∀ p ∈ openPos openq, p ∉ closed) →
      (openPos (l.foldl (processNeighbour closed cur) openq)).Nodup ∧
        ∀ p ∈ openPos (l.foldl (processNeighbour closed cur) openq),
          p ∉ closed := by
  induction l with
  | nil => intro openq h1 h2; exact ⟨h1, h2⟩
  | cons a t ih =>
    intro openq h1 h2
    rcases processNeighbour_openPos closed cur openq a with heq | ⟨heq, hnm, hncl⟩
    · refine ih _ ?_ ?_
      · rw [heq]; exact h1
      · intro p hp; rw [heq] at hp; exact h2 p hp
    · refine ih _ ?_ ?_
      · rw [heq]
        rw [List.nodup_append]
        refine ⟨h1, List.nodup_singleton _, ?_⟩
        intro p hp hps
        rw [List.mem_singleton] at hps
        subst hps
        exact hnm hp
      · intro p hp
        rw [heq] at hp
        rcases List.mem_append.mp hp with hp | hp
        · exact h2 p hp
        · rw [List.mem_singleton] at hp
          subst hp
          exact hncl

/-- Helper: inversion of a non-terminal loop iteration. -/
theorem stepOnce_next_eq {m : Maze} {e : Position} {openq : OpenQueue}
    {closed : List Position} {o' : OpenQueue} {c' : List Position}
    (h : stepOnce m e openq closed = .next o' c') :
    ∃ a rest, openq = a :: rest ∧ (popMin a rest).1.1.position ≠ e ∧
      o' = expand m closed (popMin a rest).1.1 (popMin a rest).2 ∧
      c' = closed ++ [(popMin a rest).1.1.position] := by
  cases openq with
  | nil => exact absurd h (by simp [stepOnce])
  | cons a rest =>
    simp only [stepOnce] at h
    by_cases hpos : (popMin a rest).1.1.position = e
    · rw [if_pos hpos] at h
      exact absurd h (by simp)
    · rw [if_neg hpos] at h
      injection h with h1 h2
      exact ⟨a, rest, rfl, hpos, h1.symm, h2.symm⟩

/-- Helper: one non-terminal iteration preserves the search invariant and
closes exactly one new position. -/
theorem searchInv_step {m : Maze} {s e : Position} {openq : OpenQueue}
    {closed : List Position} {o' : OpenQueue} {c' : List Position}
    (h : stepOnce m e openq closed = .next o' c')
    (hinv : SearchInv m s openq closed) :
    SearchInv m s o' c' ∧ c'.length = closed.length + 1 := by
  obtain ⟨a, rest, rfl, hne, rfl, rfl⟩ := stepOnce_next_eq h
  have hperm := popMin_perm a rest
  have hcurmem : (popMin a rest).1 ∈ a :: rest :=
    hperm.subset (List.mem_cons_self _ _)
  have hrestsub : ∀ en ∈ (popMin a rest).2, en ∈ a :: rest := fun en hen =>
    hperm.subset (List.mem_cons_of_mem _ hen)
  have hnodup' : (openPos ((popMin a rest).1 :: (popMin a rest).2)).Nodup := by
    have hmap := hperm.map (fun en : Node × Nat => en.1.position)
    have hnd := hinv.open_nodup
    unfold openPos at hnd ⊢
    exact hmap.nodup_iff.mpr hnd
  have hsplit : (popMin a rest).1.1.position ∉ openPos (popMin a rest).2 ∧
      (openPos (popMin a rest).2).Nodup := by
    have h0 : openPos ((popMin a rest).1 :: (popMin a rest).2)
        = (popMin a rest).1.1.position :: openPos (popMin a rest).2 := rfl
    rw [h0] at hnodup'
    exact List.nodup_cons.mp hnodup'
  have hcurnot : (popMin a rest).1.1.position ∉ openPos (popMin a rest).2 :=
    hsplit.1
  have hrestnodup : (openPos (popMin a rest).2).Nodup := hsplit.2
  have hrestdisj : ∀ p ∈ openPos (popMin a rest).2, p ∉ closed := by
    intro p hp
    obtain ⟨en, hen, rfl⟩ := List.mem_map.mp hp
    exact hinv.open_closed_disj en (hrestsub en hen)
  obtain ⟨hnodupE, hdisjE⟩ :=
    foldl_nodup_disj ((popMin a rest).1.1.neighbours m) (popMin a rest).2
      hrestnodup hrestdisj
  refine ⟨⟨?_, hnodupE, ?_, ?_, ?_⟩, by simp⟩
  · intro en hen
    rw [List.mem_append, List.mem_singleton]
    push_neg
    refine ⟨hdisjE _ (List.mem_map.mpr ⟨en, hen, rfl⟩), ?_⟩
    rcases foldl_entries _ _ en hen with ⟨pr, hpr⟩ | ⟨nb, hnb, heq⟩
    · intro hEq
      apply hcurnot
      rw [← hEq]
      exact List.mem_map.mpr ⟨(en.1, pr), hpr, rfl⟩
    · have hpos : en.1.position = nb.position := by rw [heq]; rfl
      intro hEq
      exact ((mem_neighbours hnb).2).ne (hEq.symm.trans hpos)
  · intro en hen
    rcases foldl_entries _ _ en hen with ⟨pr, hpr⟩ | ⟨nb, hnb, heq⟩
    · exact hinv.open_valid (en.1, pr) (hrestsub _ hpr)
    · left
      have hpos : en.1.position = nb.position := by rw [heq]; rfl
      rw [hpos]
      exact (mem_neighbours hnb).1
  · rw [List.nodup_append]
    refine ⟨hinv.closed_nodup, List.nodup_singleton _, ?_⟩
    intro p hp hps
    rw [List.mem_singleton] at hps
    subst hps
    exact hinv.open_closed_disj _ hcurmem hp
  · intro p hp
    rcases List.mem_append.mp hp with hp | hp
    · exact hinv.closed_valid p hp
    · rw [List.mem_singleton] at hp
      subst hp
      exact hinv.open_valid _ hcurmem

/-- Helper: the closed list never outgrows the grid box plus the start. -/
theorem closed_length_le (m : Maze) (s : Position) (closed : List Position)
    (hnd : closed.Nodup)
    (hval : ∀ p ∈ closed, validPos m p ∨ p = s) :
    closed.length ≤ m.x_len * m.y_len + 1 := by
  classical
  have hsub : closed.toFinset ⊆
      ((Finset.range m.x_len ×ˢ Finset.range m.y_len).image
        (fun xy => Position.mk xy.1 xy.2)) ∪ {s} := by
    intro p hp
    rw [List.mem_toFinset] at hp
    rcases hval p hp with hv | rfl
    · obtain ⟨hx, hy⟩ := validPos_lt hv
      refine Finset.mem_union_left _ (Finset.mem_image.mpr ⟨(p.x, p.y), ?_, ?_⟩)
      · rw [Finset.mem_product]
        exact ⟨Finset.mem_range.mpr hx, Finset.mem_range.mpr hy⟩
      · rfl
    · exact Finset.mem_union_right _ (Finset.mem_singleton_self _)
  have h1 : closed.length = closed.toFinset.card := by
    rw [List.toFinset_card_of_nodup hnd]
  have h2 := Finset.card_le_card hsub
  have h3 := Finset.card_union_le
    ((Finset.range m.x_len ×ˢ Finset.range m.y_len).image
      (fun xy : Nat × Nat => Position.mk xy.1 xy.2)) ({s} : Finset Position)
  have h4 := Finset.card_image_le
    (s := Finset.range m.x_len ×ˢ Finset.range m.y_len)
    (f := fun xy : Nat × Nat => Position.mk xy.1 xy.2)
  have h5 : (Finset.range m.x_len ×ˢ Finset.range m.y_len).card
      = m.x_len * m.y_len := by
    rw [Finset.card_product, Finset.card_range, Finset.card_range]
  have h6 : ({s} : Finset Position).card = 1 := Finset.card_singleton s
  omega

/-- Helper: the loop reaches a verdict whenever the fuel covers the
remaining positions. -/
theorem solveLoop_total {m : Maze} {s e : Position} :
    ∀ (fuel : Nat) (openq : OpenQueue) (closed : List Position),
      SearchInv m s openq closed →
      m.x_len * m.y_len + 2 ≤ fuel + closed.length →
      (solveLoop m e fuel openq closed).isSome := by
  intro fuel
  induction fuel with
  | zero =>
    intro openq closed hinv hle
    exfalso
    have := closed_length_le m s closed hinv.closed_nodup hinv.closed_valid
    omega
  | succ fuel ih =>
    intro openq closed hinv hle
    unfold solveLoop
    split
    · simp
    · next o' c' hstep =>
      obtain ⟨hinv', hlen⟩ := searchInv_step hstep hinv
      exact ih o' c' hinv' (by omega)

/-- Helper: the invariant holds initially. -/
theorem searchInv_init (m : Maze) (s : Position) (f : Nat) (h : Nat) :
    SearchInv m s [(Node.mk s 0 h none, f)] [] := by
  refine ⟨?_, ?_, ?_, ?_, ?_⟩
  · intro en hen
    simp
  · simp [openPos, Node.position]
  · intro en hen
    rw [List.mem_singleton] at hen
    subst hen
    exact Or.inr rfl
  · exact List.nodup_nil
  · intro p hp
    exact absurd hp (List.not_mem_nil p)

/-- Helper: a terminal error verdict of an iteration is always
`MazeIsNotSolvable`, from an empty queue. -/
theorem stepOnce_done_error {m : Maze} {e : Position} {openq : OpenQueue}
    {closed : List Position} {ek : ErrorKind}
    (h : stepOnce m e openq closed = .done (.error ek)) :
    ek = .MazeIsNotSolvable ∧ openq = [] := by
  cases openq with
  | nil =>
    refine ⟨?_, rfl⟩
    unfold stepOnce at h
    injection h with h1
    injection h1 with h2
    exact h2.symm
  | cons a rest =>
    simp only [stepOnce] at h
    by_cases hpos : (popMin a rest).1.1.position = e
    · rw [if_pos hpos] at h
      exact absurd h (by simp)
    · rw [if_neg hpos] at h
      exact absurd h (by simp)

/-- Helper: the loop's only error verdict is `MazeIsNotSolvable`. -/
theorem solveLoop_error_kind {m : Maze} {e : Position} :
    ∀ (fuel : Nat) (openq : OpenQueue) (closed : List Position)
      (ek : ErrorKind),
      solveLoop m e fuel openq closed = some (.error ek) →
      ek = .MazeIsNotSolvable := by
  intro fuel
  induction fuel with
  | zero => intro openq closed ek h; exact absurd h (by simp [solveLoop])
  | succ fuel ih =>
    intro openq closed ek h
    unfold solveLoop at h
    split at h
    · next r hstep =>
      injection h with h1
      subst h1
      exact (stepOnce_done_error hstep).1
    · next o' c' hstep => exact ih o' c' ek h

/-- Helper: reconstructed paths are never empty. -/
theorem chain_ne_nil (n : Node) : n.chain ≠ [] := by
  cases n with
  | mk p g h prev => cases prev <;> simp [Node.chain]

/-- Helper: a well-formed chain starts at the start position. -/
theorem chain_head {m : Maze} {s : Position} :
    ∀ n : Node, ChainInv m s n → n.chain.head? = some (s.x, s.y)
  | .mk p g h none, hinv => by
    have hp : p = s := hinv
    subst hp
    simp [Node.chain]
  | .mk p g h (some prev), hinv => by
    obtain ⟨hadj, hval, hprev⟩ := hinv
    have ih := chain_head prev hprev
    obtain ⟨x, t, hx⟩ := List.exists_cons_of_ne_nil (chain_ne_nil prev)
    show (prev.chain ++ [(p.x, p.y)]).head? = some (s.x, s.y)
    rw [hx] at ih ⊢
    simpa using ih

/-- Helper: a chain ends at the node's own position. -/
theorem chain_last :
    ∀ n : Node, n.chain.getLast? = some (n.position.x, n.position.y)
  | .mk p g h none => by simp [Node.chain, Node.position]
  | .mk p g h (some prev) => by
    simp [Node.chain, Node.position]

/-- Helper: consecutive chain entries are 8-adjacent. -/
theorem chain_chain' {m : Maze} {s : Position} :
    ∀ n : Node, ChainInv m s n → n.chain.Chain' AdjacentP
  | .mk p g h none, _ => by simp [Node.chain]
  | .mk p g h (some prev), hinv => by
    obtain ⟨hadj, hval, hprev⟩ := hinv
    have ih := chain_chain' prev hprev
    show (prev.chain ++ [(p.x, p.y)]).Chain' AdjacentP
    rw [List.chain'_append]
    refine ⟨ih, by simp, ?_⟩
    intro x hx y hy
    rw [chain_last prev] at hx
    simp only [Option.mem_def, Option.some.injEq] at hx
    simp only [List.head?_cons, Option.mem_def, Option.some.injEq] at hy
    subst hx
    subst hy
    exact hadj

/-- Helper: every chain entry other than the start sits on a non-wall
cell. -/
theorem chain_not_wall {m : Maze} {s : Position} :
    ∀ n : Node, ChainInv m s n →
      ∀ q ∈ n.chain, q = (s.x, s.y) ∨ ¬ isWallCell m q.1 q.2
  | .mk p g h none, hinv => by
    intro q hq
    simp only [Node.chain, List.mem_singleton] at hq
    subst hq
    have hp : p = s := hinv
    subst hp
    exact Or.inl rfl
  | .mk p g h (some prev), hinv => by
    obtain ⟨hadj, hval, hprev⟩ := hinv
    intro q hq
    have hq' : q ∈ prev.chain ++ [(p.x, p.y)] := hq
    rcases List.mem_append.mp hq' with hq'' | hq''
    · exact chain_not_wall prev hprev q hq''
    · rw [List.mem_singleton] at hq''
      subst hq''
      exact Or.inr (validPos_not_wall hval)

/-- Helper: one non-terminal iteration preserves chain well-formedness of
all queue entries. -/
theorem chainInv_step {m : Maze} {s e : Position} {openq : OpenQueue}
    {closed : List Position} {o' : OpenQueue} {c' : List Position}
    (h : stepOnce m e openq closed = .next o' c')
    (hci : ∀ en ∈ openq, ChainInv m s en.1) :
    ∀ en ∈ o', ChainInv m s en.1 := by
  obtain ⟨a, rest, rfl, hne, rfl, rfl⟩ := stepOnce_next_eq h
  have hperm := popMin_perm a rest
  intro en hen
  rcases foldl_entries _ _ en hen with ⟨pr, hpr⟩ | ⟨nb, hnb, heq⟩
  · exact hci (en.1, pr) (hperm.subset (List.mem_cons_of_mem _ hpr))
  · rw [heq]
    exact ⟨(mem_neighbours hnb).2, (mem_neighbours hnb).1,
      hci _ (hperm.subset (List.mem_cons_self _ _))⟩

/-- Helper: a successful loop verdict is the chain of a well-formed node at
the goal position. -/
theorem solveLoop_ok_chain {m : Maze} {s e : Position} :
    ∀ (fuel : Nat) (openq : OpenQueue) (closed : List Position)
      (l : List (Nat × Nat)),
      solveLoop m e fuel openq closed = some (.ok l) →
      (∀ en ∈ openq, ChainInv m s en.1) →
      ∃ n : Node, ChainInv m s n ∧ n.position = e ∧ l = n.chain := by
  intro fuel
  induction fuel with
  | zero => intro openq closed l h hci; exact absurd h (by simp [solveLoop])
  | succ fuel ih =>
    intro openq closed l h hci
    unfold solveLoop at h
    split at h
    · next r hstep =>
      injection h with h1
      subst h1
      cases openq with
      | nil => simp [stepOnce] at hstep
      | cons a rest =>
        simp only [stepOnce] at hstep
        by_cases hpos : (popMin a rest).1.1.position = e
        · rw [if_pos hpos] at hstep
          injection hstep with h2
          injection h2 with h3
          exact ⟨(popMin a rest).1.1,
            hci _ ((popMin_perm a rest).subset (List.mem_cons_self _ _)),
            hpos, h3.symm⟩
        · rw [if_neg hpos] at hstep
          exact absurd hstep (by simp)
    · next o' c' hstep =>
      exact ih o' c' l h (chainInv_step hstep hci)

/-- **C1 (amended).** When `try_solve` succeeds, the recorded path is
non-empty, starts at the start position, ends at the end position, each
consecutive pair differs by one of the 8 unit offsets, and no position
other than (possibly) the first — the stored start, which `try_solve` never
validates — is a wall cell. -/
theorem try_solve_path_valid (m : Maze) (s e : Position)
    (l : List (Nat × Nat))
    (hs : m.start = some s) (he : m.endp = some e)
    (hok : (m.try_solve).1 = .ok ())
    (hl : (m.try_solve).2.get_path = .ok l) :
    l ≠ [] ∧ l.head? = some (s.x, s.y) ∧ l.getLast? = some (e.x, e.y) ∧
      l.Chain' AdjacentP ∧
      ∀ q ∈ l, q = (s.x, s.y) ∨ ¬ isWallCell m q.1 q.2 := by
  cases hch : m.are_chars_invalid
  case true =>
    rw [try_solve_eq_invalid m s e hs he hch] at hok
    simp at hok
  case false =>
  rw [try_solve_eq_run m s e hs he hch] at hok hl
  rcases hres : solveLoop m e (m.x_len * m.y_len + 2) (initState s e) []
    with _ | r
  · rw [hres] at hok
    simp at hok
  · rw [hres] at hok hl
    cases r with
    | error ek => simp at hok
    | ok p =>
      have hpl : p = l := by
        simpa [Maze.get_path] using hl
      have hci : ∀ en ∈ initState s e, ChainInv m s en.1 := by
        intro en hen
        rw [initState, List.mem_singleton] at hen
        subst hen
        show ChainInv m s (Node.mk s 0 (heuristic s e) none)
        exact rfl
      obtain ⟨n, hcinv, hpos, hchain⟩ :=
        solveLoop_ok_chain _ (initState s e) [] p hres hci
      subst hpl
      rw [hchain]
      refine ⟨chain_ne_nil n, chain_head n hcinv, ?_,
        chain_chain' n hcinv, chain_not_wall n hcinv⟩
      rw [chain_last n, hpos]

/-- **C1 witness.** -/
theorem try_solve_path_valid_witness :
    ((mzOkW.try_solve).1 = .ok () ∧
      (mzOkW.try_solve).2.get_path = .ok [(0, 0), (1, 0), (2, 0)]) ∧
      ([(0, 0), (1, 0), (2, 0)] ≠ ([] : List (Nat × Nat)) ∧
        [(0, 0), (1, 0), (2, 0)].head?
          = some ((⟨0, 0⟩ : Position).x, (⟨0, 0⟩ : Position).y) ∧
        [(0, 0), (1, 0), (2, 0)].getLast?
          = some ((⟨2, 0⟩ : Position).x, (⟨2, 0⟩ : Position).y) ∧
        [(0, 0), (1, 0), (2, 0)].Chain' AdjacentP ∧
        ∀ q ∈ [(0, 0), (1, 0), (2, 0)],
          q = ((⟨0, 0⟩ : Position).x, (⟨0, 0⟩ : Position).y) ∨
            ¬ isWallCell mzOkW q.1 q.2) :=
  ⟨⟨by decide, by decide⟩,
    try_solve_path_valid mzOkW ⟨0, 0⟩ ⟨2, 0⟩ [(0, 0), (1, 0), (2, 0)]
      rfl rfl (by decide) (by decide)⟩

/-! ## Reachability: solvable if and only if joined -/

/-- Helper: a valid start cell is joined to itself. -/
theorem joined_refl {m : Maze} {s : Position} (hsv : SpecValid m s) :
    Joined m s s := by
  refine ⟨[s], rfl, rfl, by simp, ?_⟩
  intro p hp
  rw [List.mem_singleton] at hp
  subst hp
  exact hsv

/-- Helper: a joined path extends along a valid adjacent step. -/
theorem joined_extend {m : Maze} {s p q : Position} (hj : Joined m s p)
    (hadj : Adjacent p q) (hq : SpecValid m q) : Joined m s q := by
  obtain ⟨l, hh, hl, hc, hv⟩ := hj
  have hln : l ≠ [] := by
    intro h0
    rw [h0] at hh
    simp at hh
  refine ⟨l ++ [q], ?_, List.getLast?_concat l, ?_, ?_⟩
  · obtain ⟨x, t, hx⟩ := List.exists_cons_of_ne_nil hln
    rw [hx] at hh ⊢
    simpa using hh
  · rw [List.chain'_append]
    refine ⟨hc, by simp, ?_⟩
    intro x hx y hy
    rw [hl] at hx
    simp only [Option.mem_def, Option.some.injEq] at hx
    simp only [List.head?_cons, Option.mem_def, Option.some.injEq] at hy
    subst hx
    subst hy
    exact hadj
  · intro r hr
    rcases List.mem_append.mp hr with hr | hr
    · exact hv r hr
    · rw [List.mem_singleton] at hr
      subst hr
      exact hq

/-- Helper: one non-terminal iteration preserves joinedness of the queue's
positions. -/
theorem jopen_step {m : Maze} {s e : Position} {openq : OpenQueue}
    {closed : List Position} {o' : OpenQueue} {c' : List Position}
    (h : stepOnce m e openq closed = .next o' c')
    (hj : ∀ en ∈ openq, Joined m s en.1.position) :
    ∀ en ∈ o', Joined m s en.1.position := by
  obtain ⟨a, rest, rfl, hne, rfl, rfl⟩ := stepOnce_next_eq h
  have hperm := popMin_perm a rest
  intro en hen
  rcases foldl_entries _ _ en hen with ⟨pr, hpr⟩ | ⟨nb, hnb, heq⟩
  · exact hj (en.1, pr) (hperm.subset (List.mem_cons_of_mem _ hpr))
  · have hpos : en.1.position = nb.position := by rw [heq]; rfl
    rw [hpos]
    exact joined_extend (hj _ (hperm.subset (List.mem_cons_self _ _)))
      (mem_neighbours hnb).2 (validPos_spec (mem_neighbours hnb).1)

/-- Helper: one non-terminal iteration preserves the reachability
invariant. -/
theorem joinInv_step {m : Maze} {s e : Position} {openq : OpenQueue}
    {closed : List Position} {o' : OpenQueue} {c' : List Position}
    (h : stepOnce m e openq closed = .next o' c')
    (hinv : JoinInv m s e openq closed) : JoinInv m s e o' c' := by
  have hjo := jopen_step h hinv.jopen
  obtain ⟨a, rest, rfl, hne, rfl, rfl⟩ := stepOnce_next_eq h
  have hperm := popMin_perm a rest
  have hcurmem : (popMin a rest).1 ∈ a :: rest :=
    hperm.subset (List.mem_cons_self _ _)
  have hcurjoin : Joined m s (popMin a rest).1.1.position :=
    hinv.jopen _ hcurmem
  have hposperm : List.Perm
      (openPos ((popMin a rest).1 :: (popMin a rest).2))
      (openPos (a :: rest)) := hperm.map _
  refine ⟨hjo, ?_, ?_, ?_, ?_⟩
  · intro p hp
    rcases List.mem_append.mp hp with hp | hp
    · exact hinv.jclosed p hp
    · rw [List.mem_singleton] at hp
      subst hp
      exact hcurjoin
  · intro p hp q hadj hqv
    rcases List.mem_append.mp hp with hp | hp
    · rcases hinv.closure p hp q hadj hqv with hq | hq
      · have hq1 : q ∈ openPos ((popMin a rest).1 :: (popMin a rest).2) :=
          hposperm.mem_iff.mpr hq
        have hq2 : q = (popMin a rest).1.1.position ∨
            q ∈ openPos (popMin a rest).2 := by
          simpa [openPos] using hq1
        rcases hq2 with rfl | hq2
        · exact Or.inr (List.mem_append_right _ (by simp))
        · exact Or.inl (foldl_openPos_mono _ _ _ hq2)
      · exact Or.inr (List.mem_append_left _ hq)
    · rw [List.mem_singleton] at hp
      subst hp
      obtain ⟨nb, hnb, hnbq⟩ := neighbours_complete hadj hqv
      rcases foldl_covers _ nb hnb (popMin a rest).2 with hq | hq
      · exact Or.inl (hnbq ▸ hq)
      · exact Or.inr (List.mem_append_left _ (hnbq ▸ hq))
  · rcases hinv.seen with hs1 | hs1
    · have hs2 : s ∈ openPos ((popMin a rest).1 :: (popMin a rest).2) :=
        hposperm.mem_iff.mpr hs1
      have hs3 : s = (popMin a rest).1.1.position ∨
          s ∈ openPos (popMin a rest).2 := by
        simpa [openPos] using hs2
      rcases hs3 with rfl | hs3
      · exact Or.inr (List.mem_append_right _ (by simp))
      · exact Or.inl (foldl_openPos_mono _ _ _ hs3)
    · exact Or.inr (List.mem_append_left _ hs1)
  · intro hmem
    rcases List.mem_append.mp hmem with hmem | hmem
    · exact hinv.ennc hmem
    · rw [List.mem_singleton] at hmem
      exact hne hmem.symm

/-- Helper: a successful loop verdict means the end is joined to the
start. -/
theorem solveLoop_ok_joined {m : Maze} {s e : Position} :
    ∀ (fuel : Nat) (openq : OpenQueue) (closed : List Position)
      (l : List (Nat × Nat)),
      solveLoop m e fuel openq closed = some (.ok l) →
      (∀ en ∈ openq, Joined m s en.1.position) →
      Joined m s e := by
  intro fuel
  induction fuel with
  | zero => intro openq closed l h hj; exact absurd h (by simp [solveLoop])
  | succ fuel ih =>
    intro openq closed l h hj
    unfold solveLoop at h
    split at h
    · next r hstep =>
      injection h with h1
      subst h1
      cases openq with
      | nil => simp [stepOnce] at hstep
      | cons a rest =>
        simp only [stepOnce] at hstep
        by_cases hpos : (popMin a rest).1.1.position = e
        · rw [← hpos]
          exact hj _ ((popMin_perm a rest).subset (List.mem_cons_self _ _))
        · rw [if_neg hpos] at hstep
          exact absurd hstep (by simp)
    · next o' c' hstep =>
      exact ih o' c' l h (jopen_step hstep hj)

/-- Helper: walking a valid adjacent path whose start is closed keeps every
vertex closed, when closed vertices have all their valid neighbours
closed. -/
theorem chain_all_closed {m : Maze} {closed : List Position}
    (hrows : rowsUniform m)
    (hcl : ∀ p ∈ closed, ∀ q, Adjacent p q → validPos m q → q ∈ closed) :
    ∀ (l : List Position) (a : Position), a ∈ closed →
      (a :: l).Chain' Adjacent → (∀ p ∈ a :: l, SpecValid m p) →
      ∀ q ∈ a :: l, q ∈ closed := by
  intro l
  induction l with
  | nil =>
    intro a ha _ _ q hq
    rw [List.mem_singleton] at hq
    subst hq
    exact ha
  | cons b t ih =>
    intro a ha hchain hval q hq
    have hab : Adjacent a b := (List.chain'_cons.mp hchain).1
    have hb : b ∈ closed :=
      hcl a ha b hab (spec_validPos hrows (hval b (by simp)))
    rcases List.mem_cons.mp hq with rfl | hq1
    · exact ha
    · exact ih b hb (List.chain'_cons.mp hchain).2
        (fun p hp => hval p (List.mem_cons_of_mem _ hp)) q hq1

/-- Helper: an unsolvable verdict means no valid path joins start to
end. -/
theorem solveLoop_error_not_joined {m : Maze} {s e : Position}
    (hrows : rowsUniform m) :
    ∀ (fuel : Nat) (openq : OpenQueue) (closed : List Position)
      (ek : ErrorKind),
      solveLoop m e fuel openq closed = some (.error ek) →
      JoinInv m s e openq closed →
      ¬ Joined m s e := by
  intro fuel
  induction fuel with
  | zero => intro openq closed ek h _; exact absurd h (by simp [solveLoop])
  | succ fuel ih =>
    intro openq closed ek h hinv
    unfold solveLoop at h
    split at h
    · next r hstep =>
      injection h with h1
      subst h1
      obtain ⟨-, rfl⟩ := stepOnce_done_error hstep
      intro hj
      obtain ⟨l, hh, hl, hc, hv⟩ := hj
      obtain ⟨x, t, rfl⟩ : ∃ x t, l = x :: t := by
        cases l with
        | nil => simp at hh
        | cons x t => exact ⟨x, t, rfl⟩
      have hx : x = s := by simpa using hh
      subst hx
      have hscl : x ∈ closed := by
        rcases hinv.seen with hs1 | hs1
        · simp [openPos] at hs1
        · exact hs1
      have hclosure : ∀ p ∈ closed, ∀ q, Adjacent p q → validPos m q →
          q ∈ closed := by
        intro p hp q hadj hqv
        rcases hinv.closure p hp q hadj hqv with hq | hq
        · simp [openPos] at hq
        · exact hq
      have hall := chain_all_closed hrows hclosure t x hscl hc hv
      exact hinv.ennc (hall e (List.mem_of_getLast?_eq_some hl))
    · next o' c' hstep =>
      exact ih o' c' ek h (joinInv_step hstep hinv)

/-- **C2 (amended).** On a maze whose rows all have the row-0 length, whose
start and end are set, whose four configured characters are pairwise
distinct, and whose start position is an in-bounds non-wall cell,
`try_solve` answers `MazeIsNotSolvable` exactly when no 8-connected path of
in-bounds non-wall cells joins start to end, and answers `Ok` whenever such
a path exists. -/
theorem try_solve_solvable_iff (m : Maze) (s e : Position)
    (hrows : rowsUniform m)
    (hs : m.start = some s) (he : m.endp = some e)
    (hch : m.are_chars_invalid = false)
    (hsv : SpecValid m s) :
    ((m.try_solve).1 = .error .MazeIsNotSolvable ↔ ¬ Joined m s e) ∧
      (Joined m s e → (m.try_solve).1 = .ok ()) := by
  have hinv0 : SearchInv m s (initState s e) [] :=
    searchInv_init m s (Node.mk s 0 (heuristic s e) none).f_cost
      (heuristic s e)
  have htot := solveLoop_total (s := s) (e := e)
    (m.x_len * m.y_len + 2) (initState s e) [] hinv0 (by simp)
  obtain ⟨r, hr⟩ := Option.isSome_iff_exists.mp htot
  have hjinv0 : JoinInv m s e (initState s e) [] := by
    refine ⟨?_, ?_, ?_, ?_, ?_⟩
    · intro en hen
      rw [initState, List.mem_singleton] at hen
      subst hen
      exact joined_refl hsv
    · intro p hp
      exact absurd hp (List.not_mem_nil p)
    · intro p hp
      exact absurd hp (List.not_mem_nil p)
    · left
      rw [initState]
      simp [openPos, Node.position]
    · exact List.not_mem_nil e
  rw [try_solve_eq_run m s e hs he hch, hr]
  cases r with
  | ok p =>
    have hj : Joined m s e :=
      solveLoop_ok_joined _ (initState s e) [] p hr hjinv0.jopen
    exact ⟨⟨fun habs => absurd habs (by simp), fun hnj => absurd hj hnj⟩,
      fun _ => rfl⟩
  | error ek =>
    have hek : ek = .MazeIsNotSolvable :=
      solveLoop_error_kind (m.x_len * m.y_len + 2) (initState s e) [] ek hr
    subst hek
    have hnj : ¬ Joined m s e :=
      solveLoop_error_not_joined hrows (m.x_len * m.y_len + 2)
        (initState s e) [] _ hr hjinv0
    exact ⟨⟨fun _ => hnj, fun _ => rfl⟩, fun hj => absurd hj hnj⟩

/-- **C2 witness.** -/
theorem try_solve_solvable_iff_witness :
    rowsUniform mzOkW ∧ mzOkW.start = some ⟨0, 0⟩ ∧
      mzOkW.endp = some ⟨2, 0⟩ ∧ mzOkW.are_chars_invalid = false ∧
      SpecValid mzOkW ⟨0, 0⟩ ∧
      (((mzOkW.try_solve).1 = .error .MazeIsNotSolvable ↔
          ¬ Joined mzOkW ⟨0, 0⟩ ⟨2, 0⟩) ∧
        (Joined mzOkW ⟨0, 0⟩ ⟨2, 0⟩ → (mzOkW.try_solve).1 = .ok ())) :=
  ⟨by intro row hrow; fin_cases hrow; rfl, rfl, rfl, by decide, by decide,
    try_solve_solvable_iff mzOkW ⟨0, 0⟩ ⟨2, 0⟩
      (by intro row hrow; fin_cases hrow; rfl) rfl rfl (by decide)
      (by decide)⟩

end AStar
